import Mathlib

/-!
Verification of the two iOS localization command-line utilities:
`clean_unused_localizations.py` (unused-key cleaner) and
`check_missing_localizations.py` (missing-key checker).

Strings are modelled as `List Char`; the Python string operations used by the
scripts (strip, split, join, substring search, the two entry regexes,
`str.upper`/`str.capitalize`) are embedded with their ASCII semantics, which
is exact on the character set the scripts operate over.
-/

/-! ### Character-level helpers (Python semantics on ASCII) -/

/-- Whitespace characters matched by the scripts' regex class and removed by
Python's `str.strip` (the ASCII whitespace characters). -/
def pyIsSpace (c : Char) : Bool :=
  c = ' ' || c = '\t' || c = '\n' || c = '\r' || c = '\x0b' || c = '\x0c'

/-- Python `str.strip()`: drop whitespace from both ends of a line. -/
def pyStrip (l : List Char) : List Char :=
  ((l.dropWhile pyIsSpace).reverse.dropWhile pyIsSpace).reverse

/-- Python `str.capitalize()` for ASCII text: the first character is
uppercased and every remaining character is lowercased. -/
def pyCapitalize : List Char → List Char
  | [] => []
  | a :: rest => Char.toUpper a :: rest.map Char.toLower

/-- The expression `part[0].upper() + part[1:]` from `snake_to_camel`:
uppercase the first character and keep the remainder unchanged. -/
def upperFirst : List Char → List Char
  | [] => []
  | a :: rest => Char.toUpper a :: rest

/-- Python `str.split(sep)` for a one-character separator: empty pieces are
kept, and splitting the empty string yields one empty piece. -/
def splitOnChar (c : Char) : List Char → List (List Char)
  | [] => [[]]
  | a :: rest =>
    if a = c then [] :: splitOnChar c rest
    else
      match splitOnChar c rest with
      | [] => [[a]]
      | h :: t => (a :: h) :: t

/-- Python `sep.join(pieces)` for a one-character separator. -/
def joinSep (c : Char) : List (List Char) → List Char
  | [] => []
  | [l] => l
  | l :: ls => l ++ c :: joinSep c ls

/-! ### KeyNameTransformer: `LocalizationCleaner.snake_to_camel` -/

/-- Last-segment rule of `snake_to_camel`: a segment containing an underscore
is split on underscores, the first piece is kept and every later piece goes
through Python `str.capitalize()`; the pieces are concatenated with no
separator.  A segment without an underscore is returned unchanged. -/
def lastSegTransform (p : List Char) : List Char :=
  if p.contains '_' then
    match splitOnChar '_' p with
    | [] => []
    | s0 :: rest => s0 ++ (rest.map pyCapitalize).flatten
  else p

/-- The `enumerate` loop of `snake_to_camel`: every segment except the last
gets `upperFirst`, the last segment gets `lastSegTransform`. -/
def transformParts : List (List Char) → List (List Char)
  | [] => []
  | [p] => [lastSegTransform p]
  | p :: ps => upperFirst p :: transformParts ps

/-- Embedding of `LocalizationCleaner.snake_to_camel`: split the key on dots,
transform the segments, and rejoin them with dots. -/
def snake_to_camel (s : List Char) : List Char :=
  joinSep '.' (transformParts (splitOnChar '.' s))

/-- Last-segment rule as the claim literally words it: the first character of
every later underscore piece is capitalized and nothing else changes. -/
def lastSegClaimed (p : List Char) : List Char :=
  if p.contains '_' then
    match splitOnChar '_' p with
    | [] => []
    | s0 :: rest => s0 ++ (rest.map upperFirst).flatten
  else p

/-- Key transformation exactly as the claim words it (first characters
capitalized, remainders of underscore pieces untouched); used to compare the
claim's description against the code. -/
def transformClaimed (s : List Char) : List Char :=
  let parts := splitOnChar '.' s
  joinSep '.' (parts.dropLast.map upperFirst ++ [lastSegClaimed (parts.getLastD [])])

/-- Key transformation in the declarative shape of the amended claim: all
non-terminal segments get their first character uppercased with the remainder
unchanged, and the terminal segment follows the underscore rule with Python
`capitalize` semantics (first character uppercased, rest lowercased). -/
def transformSpec (s : List Char) : List Char :=
  let parts := splitOnChar '.' s
  joinSep '.' (parts.dropLast.map upperFirst ++ [lastSegTransform (parts.getLastD [])])

/-! ### StringsParser: the cleaner's entry regex and line loop -/

/-- Character class of the cleaner's key pattern `[a-zA-Z0-9_.-]`. -/
def isKeyChar (c : Char) : Bool :=
  c.isAlpha || c.isDigit || c = '_' || c = '.' || c = '-'

/-- The regex fragment `\s*`: drop leading whitespace. -/
def dropSpaces (l : List Char) : List Char := l.dropWhile pyIsSpace

/-- The regex fragment `(?:[^"\\]|\\.)*"`: read quoted-body tokens (a
character other than quote and backslash, or a backslash followed by a
non-newline character) up to the closing quote.  Returns the raw matched
body together with the input remaining after the closing quote; fails when
no closing quote is reachable, exactly as the Python pattern does. -/
def matchQuoted : List Char → Option (List Char × List Char)
  | [] => none
  | a :: rest =>
    if a = '"' then some ([], rest)
    else if a = '\\' then
      match rest with
      | [] => none
      | c :: rest2 =>
        if c = '\n' then none
        else
          match matchQuoted rest2 with
          | some (v, r) => some ('\\' :: c :: v, r)
          | none => none
    else
      match matchQuoted rest with
      | some (v, r) => some (a :: v, r)
      | none => none

/-- Tail of the cleaner's entry pattern after the key groups: matches
`\s*=\s*"((?:[^"\\]|\\.)*)"\s*;\s*$` and returns the raw value group. -/
def matchEntryTail (rest3 : List Char) : Option (List Char) :=
  match dropSpaces rest3 with
  | [] => none
  | e :: rest4 =>
    if e = '=' then
      match dropSpaces rest4 with
      | [] => none
      | q :: rest5 =>
        if q = '"' then
          match matchQuoted rest5 with
          | some vr =>
            match dropSpaces vr.2 with
            | [] => none
            | s :: rest7 =>
              if s = ';' then
                if (dropSpaces rest7).isEmpty then some vr.1 else none
              else none
          | none => none
        else none
    else none

/-- The cleaner's full entry pattern
`^\s*"([a-zA-Z0-9_.-]+)"\s*=\s*"((?:[^"\\]|\\.)*)"\s*;\s*$`, returning the
key and raw value groups on a match. -/
def matchEntry (l : List Char) : Option (List Char × List Char) :=
  match dropSpaces l with
  | [] => none
  | a :: rest =>
    if a = '"' then
      match List.span isKeyChar rest with
      | (key, rest2) =>
        if key = [] then none
        else
          match rest2 with
          | [] => none
          | b :: rest3 =>
            if b = '"' then
              match matchEntryTail rest3 with
              | some value => some (key, value)
              | none => none
            else none
    else none

/-- One line of the parsing loop shared by the cleaner's parser and remover:
strip the line, skip blank lines and `//` comment lines, then try the strict
entry pattern. -/
def lineEntry (line : List Char) : Option (List Char × List Char) :=
  let ls := pyStrip line
  if ls.isEmpty || ['/', '/'].isPrefixOf ls then none
  else matchEntry ls

/-- Python dict assignment `m[k] = v`: overwrite the binding in place when
the key is present, otherwise append a new binding. -/
def dictInsert {α : Type} (m : List (List Char × α)) (k : List Char) (v : α) :
    List (List Char × α) :=
  if m.any (fun p => p.1 == k) then
    m.map (fun p => if p.1 == k then (k, v) else p)
  else m ++ [(k, v)]

/-- One iteration of `parse_localizable_strings`: a matching line registers
`key -> (snake_to_camel key, value)` in the table. -/
def parseStep (m : List (List Char × (List Char × List Char))) (line : List Char) :
    List (List Char × (List Char × List Char)) :=
  match lineEntry line with
  | some (k, v) => dictInsert m k (snake_to_camel k, v)
  | none => m

/-- Embedding of `LocalizationCleaner.parse_localizable_strings` over the
lines of the file: builds the table `original_key -> (camel_key, value)`. -/
def parse_localizable_strings (lines : List (List Char)) :
    List (List Char × (List Char × List Char)) :=
  lines.foldl parseStep []

/-- Dictionary lookup on the parsed table. -/
def lookupTable {α : Type} (m : List (List Char × α)) (k : List Char) : Option α :=
  (m.find? (fun p => p.1 == k)).map (fun p => p.2)

/-- Single-line serialized form `"key" = "value";` used by the report writer
and by the round-trip property. -/
def serializeEntry (k v : List Char) : List Char :=
  '"' :: (k ++ ('"' :: ' ' :: '=' :: ' ' :: '"' :: (v ++ ['"', ';'])))

/-- A value contains no unescaped quote (claim wording for the round-trip
property): scanning left to right, a backslash escapes the following
character, and no remaining quote may occur. -/
def noUnescapedQuote : List Char → Bool
  | [] => true
  | a :: rest =>
    if a = '"' then false
    else if a = '\\' then
      match rest with
      | [] => true
      | _ :: rest2 => noUnescapedQuote rest2
    else noUnescapedQuote rest

/-- A value body the entry pattern can match in full: a concatenation of
tokens that are either a character other than quote and backslash, or a
backslash followed by a non-newline character. -/
def wellFormedValue : List Char → Bool
  | [] => true
  | [a] => a ≠ '"' && a ≠ '\\'
  | a :: c :: rest =>
    if a = '"' then false
    else if a = '\\' then c ≠ '\n' && wellFormedValue rest
    else wellFormedValue (c :: rest)

/-! ### EntryRemover: `LocalizationCleaner.remove_unused_localizations` -/

/-- One iteration of the removal loop: blank lines, comment lines and
non-matching lines are appended to the output; a line matching the entry
pattern with a key in the removal set is dropped and counted. -/
def removeStep (ks : List (List Char)) (acc : List (List Char) × Nat)
    (line : List Char) : List (List Char) × Nat :=
  match lineEntry line with
  | some (k, _) =>
    if ks.contains k then (acc.1, acc.2 + 1) else (acc.1 ++ [line], acc.2)
  | none => (acc.1 ++ [line], acc.2)

/-- Embedding of the filtering core of
`LocalizationCleaner.remove_unused_localizations`: returns the kept lines
and the count of removed lines. -/
def remove_unused_localizations (lines : List (List Char)) (ks : List (List Char)) :
    List (List Char) × Nat :=
  lines.foldl (removeStep ks) ([], 0)

/-! ### SourceScanner and UsageClassifier -/

/-- A candidate source file: its path suffix (extension) and its content. -/
structure SourceFile where
  suffix : List Char
  content : List Char
deriving DecidableEq

/-- Python substring containment `term in content`. -/
def containsSub (needle hay : List Char) : Bool :=
  hay.tails.any (fun t => needle.isPrefixOf t)

/-- Embedding of `LocalizationCleaner.search_in_file` (reads swallowed
errors aside: an unreadable file reports no match, which is the `none`
content case a caller can encode as empty content). -/
def search_in_file (f : SourceFile) (term : List Char) : Bool :=
  containsSub term f.content

/-- The directory names excluded by `find_swift_files`. -/
def excludedDirNames : List (List Char) :=
  ["Pods".data, "build".data, "DerivedData".data, ".git".data]

/-- The filtering step of `LocalizationCleaner.find_swift_files`: a path is
kept unless one of the excluded names is a member of its `parts` tuple
(Python `excluded_dir in file.parts`, which is tuple membership). -/
def find_swift_files_filter (paths : List (List (List Char))) :
    List (List (List Char)) :=
  paths.filter (fun p => !(excludedDirNames.any (fun d => p.contains d)))

/-- Generator-style reference string `L10n.<camel key>`. -/
def swiftgenTerm (camel : List Char) : List Char :=
  "L10n.".data ++ camel

/-- Objective-C native reference `NSLocalizedString(@"<key>"`. -/
def nativeTermOC (key : List Char) : List Char :=
  "NSLocalizedString(@\"".data ++ key ++ ['"']

/-- Swift native reference `NSLocalizedString("<key>"`. -/
def nativeTermSwift (key : List Char) : List Char :=
  "NSLocalizedString(\"".data ++ key ++ ['"']

/-- The C-family extensions of the native-lookup scan. -/
def cFamilySuffixes : List (List Char) :=
  [".m".data, ".mm".data, ".h".data]

/-- Per-file native-lookup test of `is_localization_used`: `.m`, `.mm` and
`.h` files are tested with the Objective-C literal only; `.swift` files are
tested with the Swift literal and then the Objective-C literal; other files
are not tested. -/
def nativeHit (key : List Char) (f : SourceFile) : Bool :=
  if cFamilySuffixes.contains f.suffix then search_in_file f (nativeTermOC key)
  else if f.suffix == ".swift".data then
    search_in_file f (nativeTermSwift key) || search_in_file f (nativeTermOC key)
  else false

/-- Embedding of `LocalizationCleaner.is_localization_used`: first scan all
files for the generator-style reference, then scan for the extension-matched
native reference, returning the `(used, files, usage kind)` triple of the
Python function. -/
def is_localization_used (key camel : List Char) (files : List SourceFile) :
    Bool × List SourceFile × List Char :=
  match files.find? (fun f => search_in_file f (swiftgenTerm camel)) with
  | some f => (true, [f], "SwiftGen".data)
  | none =>
    match files.find? (fun f => nativeHit key f) with
    | some f => (true, [f], "NSLocalizedString".data)
    | none => (false, [], [])

/-! ### Key-diff tool: `check_missing_localizations.py` -/

/-- The lazy tail `.*?";` of the diff tool's key pattern: succeed exactly
when a quote immediately followed by a semicolon occurs later on the line,
with no newline before it. -/
def lazyCloseSemi : List Char → Bool
  | [] => false
  | a :: rest =>
    if a = '"' && rest.head? == some ';' then true
    else if a = '\n' then false
    else lazyCloseSemi rest

/-- The diff tool's key pattern `^"((?:[^"\\]|\\.)*)"\s*=\s*".*?";` (a prefix
match on the stripped line), returning the key group. -/
def matchDiffKey (l : List Char) : Option (List Char) :=
  match l with
  | [] => none
  | a :: rest =>
    if a = '"' then
      match matchQuoted rest with
      | some kr =>
        match dropSpaces kr.2 with
        | [] => none
        | e :: rest3 =>
          if e = '=' then
            match dropSpaces rest3 with
            | [] => none
            | q :: rest4 =>
              if q = '"' then
                if lazyCloseSemi rest4 then some kr.1 else none
              else none
          else none
      | none => none
    else none

/-- One line of the diff tool's parsing loop: strip, skip blank and comment
lines, then try the key pattern. -/
def diffLineKey (line : List Char) : Option (List Char) :=
  let ls := pyStrip line
  if ls.isEmpty || ['/', '/'].isPrefixOf ls then none
  else matchDiffKey ls

/-- Embedding of `parse_strings_file_content`: the set of keys found on the
lines of the file. -/
def parse_strings_file_content (lines : List (List Char)) : Finset (List Char) :=
  lines.foldl
    (fun s line =>
      match diffLineKey line with
      | some k => insert k s
      | none => s)
    ∅

/-- The set difference `base_keys - compare_keys` of
`compare_and_display_missing_keys`. -/
def compare_missing (base compare : Finset (List Char)) : Finset (List Char) :=
  base \ compare

/-- Python string comparison (lexicographic by code point) as a Boolean
less-or-equal on character lists. -/
def lexLe : List Char → List Char → Bool
  | [], _ => true
  | _ :: _, [] => false
  | a :: as, b :: bs => if a < b then true else if b < a then false else lexLe as bs

/-- Propositional form of `lexLe`. -/
def LexLeP (a b : List Char) : Prop := lexLe a b = true

instance : DecidableRel LexLeP := fun a b => by
  unfold LexLeP
  infer_instance

theorem lexLe_total : ∀ a b : List Char, lexLe a b = true ∨ lexLe b a = true
  | [], _ => Or.inl rfl
  | _ :: _, [] => Or.inr rfl
  | a :: as, b :: bs => by
    rcases lt_trichotomy a b with h | h | h
    · left; simp [lexLe, h]
    · subst h
      rcases lexLe_total as bs with ih | ih
      · left; simp [lexLe, lt_irrefl, ih]
      · right; simp [lexLe, lt_irrefl, ih]
    · right; simp [lexLe, h]

theorem lexLe_trans : ∀ a b c : List Char,
    lexLe a b = true → lexLe b c = true → lexLe a c = true
  | [], _, _ => fun _ _ => rfl
  | _ :: _, [], _ => fun h _ => by simp [lexLe] at h
  | _ :: _, _ :: _, [] => fun _ h => by simp [lexLe] at h
  | a :: as, b :: bs, c :: cs => fun h1 h2 => by
    simp only [lexLe] at h1 h2 ⊢
    rcases lt_trichotomy a b with hab | hab | hab
    · rcases lt_trichotomy b c with hbc | hbc | hbc
      · simp [lt_trans hab hbc]
      · subst hbc; simp [hab]
      · simp [lt_asymm hbc, hbc] at h2
    · subst hab
      rcases lt_trichotomy a c with hac | hac | hac
      · simp [hac]
      · subst hac
        simp [lt_irrefl] at h1 h2 ⊢
        exact lexLe_trans as bs cs h1 h2
      · simp [lt_irrefl] at h1
        simp [lt_asymm hac, hac] at h2
    · simp [lt_asymm hab, hab] at h1

theorem lexLe_antisymm : ∀ a b : List Char,
    lexLe a b = true → lexLe b a = true → a = b
  | [], [] => fun _ _ => rfl
  | [], _ :: _ => fun _ h => by simp [lexLe] at h
  | _ :: _, [] => fun h _ => by simp [lexLe] at h
  | a :: as, b :: bs => fun h1 h2 => by
    simp only [lexLe] at h1 h2
    rcases lt_trichotomy a b with hab | hab | hab
    · simp [hab, lt_asymm hab] at h2
    · subst hab
      simp [lt_irrefl] at h1 h2
      rw [lexLe_antisymm as bs h1 h2]
    · simp [hab, lt_asymm hab] at h1

instance : IsTrans (List Char) LexLeP := ⟨fun a b c => lexLe_trans a b c⟩

instance : IsAntisymm (List Char) LexLeP := ⟨lexLe_antisymm⟩

instance : IsTotal (List Char) LexLeP := ⟨lexLe_total⟩

instance : IsRefl (List Char) LexLeP :=
  ⟨fun a => by rcases lexLe_total a a with h | h <;> exact h⟩

/-- The display order of `compare_and_display_missing_keys`:
`sorted(list(missing_keys))`, the missing keys listed in lexicographic
order. -/
def display_missing (base compare : Finset (List Char)) : List (List Char) :=
  (compare_missing base compare).sort LexLeP

/-- Return value of the diff tool's `main`: file contents are given as
`none` for a read failure and `some lines` otherwise, with the optional
second compare file doubly optional (absent, or present but unreadable).
Mirrors the early `return 1` paths, the empty-base warning, and the final
`return 0 if total_missing == 0 else 1`. -/
def keyDiffMainReturn (base c1 : Option (List (List Char)))
    (c2 : Option (Option (List (List Char)))) : Nat :=
  match base with
  | none => 1
  | some bl =>
    let bk := parse_strings_file_content bl
    if bk = ∅ then 1
    else
      match c1 with
      | none => 1
      | some c1l =>
        let m1 := (compare_missing bk (parse_strings_file_content c1l)).card
        let total :=
          match c2 with
          | none => m1
          | some none => m1
          | some (some c2l) => m1 + (compare_missing bk (parse_strings_file_content c2l)).card
        if total = 0 then 0 else 1

/-- Process exit status of the diff tool: the module guard
`if __name__ == "__main__": main()` calls `main` and discards its return
value, so the interpreter always exits with status 0. -/
def keyDiffProcessExit (base c1 : Option (List (List Char)))
    (c2 : Option (Option (List (List Char)))) : Nat :=
  let _status := keyDiffMainReturn base c1 c2
  0

/-! ### Properties of the ASCII case maps -/

theorem toNat_ofNat_small (n : Nat) (h : n < 55296) : (Char.ofNat n).toNat = n := by
  have hv : n.isValidChar := Or.inl h
  rw [Char.ofNat, dif_pos hv]
  simp [Char.ofNatAux, Char.toNat, UInt32.toNat]

theorem toUpper_eq_or (c : Char) :
    Char.toUpper c = c ∨
      (97 ≤ c.toNat ∧ c.toNat ≤ 122 ∧ (Char.toUpper c).toNat = c.toNat - 32) := by
  by_cases h : c.toNat ≥ 97 ∧ c.toNat ≤ 122
  · right
    refine ⟨h.1, h.2, ?_⟩
    show (let n := c.toNat; if n ≥ 97 ∧ n ≤ 122 then Char.ofNat (n - 32) else c).toNat = _
    rw [if_pos h, toNat_ofNat_small]
    omega
  · left
    show (let n := c.toNat; if n ≥ 97 ∧ n ≤ 122 then Char.ofNat (n - 32) else c) = c
    rw [if_neg h]

theorem toLower_eq_or (c : Char) :
    Char.toLower c = c ∨
      (65 ≤ c.toNat ∧ c.toNat ≤ 90 ∧ (Char.toLower c).toNat = c.toNat + 32) := by
  by_cases h : c.toNat ≥ 65 ∧ c.toNat ≤ 90
  · right
    refine ⟨h.1, h.2, ?_⟩
    show (let n := c.toNat; if n ≥ 65 ∧ n ≤ 90 then Char.ofNat (n + 32) else c).toNat = _
    rw [if_pos h, toNat_ofNat_small]
    omega
  · left
    show (let n := c.toNat; if n ≥ 65 ∧ n ≤ 90 then Char.ofNat (n + 32) else c) = c
    rw [if_neg h]

theorem toUpper_ne_of_out (c d : Char) (hd : ¬(65 ≤ d.toNat ∧ d.toNat ≤ 90))
    (hne : c ≠ d) : Char.toUpper c ≠ d := by
  rcases toUpper_eq_or c with h | ⟨h1, h2, h3⟩
  · rw [h]; exact hne
  · intro hc
    rw [hc] at h3
    exact hd ⟨by omega, by omega⟩

theorem toLower_ne_of_out (c d : Char) (hd : ¬(97 ≤ d.toNat ∧ d.toNat ≤ 122))
    (hne : c ≠ d) : Char.toLower c ≠ d := by
  rcases toLower_eq_or c with h | ⟨h1, h2, h3⟩
  · rw [h]; exact hne
  · intro hc
    rw [hc] at h3
    exact hd ⟨by omega, by omega⟩

theorem toUpper_idem (c : Char) : Char.toUpper (Char.toUpper c) = Char.toUpper c := by
  rcases toUpper_eq_or c with h | ⟨h1, h2, h3⟩
  · rw [h, h]
  · rcases toUpper_eq_or (Char.toUpper c) with h' | ⟨h1', h2', h3'⟩
    · exact h'
    · omega

theorem toNat_dot : ('.' : Char).toNat = 46 := by decide

theorem toNat_underscore : ('_' : Char).toNat = 95 := by decide

/-! ### Properties of splitting and joining -/

theorem splitOnChar_ne_nil (c : Char) : ∀ l : List Char, splitOnChar c l ≠ []
  | [] => by simp [splitOnChar]
  | a :: rest => by
    by_cases h : a = c
    · simp [splitOnChar, h]
    · simp only [splitOnChar, if_neg h]
      match hs : splitOnChar c rest with
      | [] => simp
      | h2 :: t => simp

theorem not_mem_of_mem_splitOnChar (c : Char) :
    ∀ (l : List Char) (p : List Char), p ∈ splitOnChar c l → c ∉ p
  | [], p, hp => by
    simp [splitOnChar] at hp
    simp [hp]
  | a :: rest, p, hp => by
    by_cases h : a = c
    · simp only [splitOnChar, if_pos h, List.mem_cons] at hp
      rcases hp with hp | hp
      · simp [hp]
      · exact not_mem_of_mem_splitOnChar c rest p hp
    · simp only [splitOnChar, if_neg h] at hp
      match hs : splitOnChar c rest with
      | [] => exact absurd hs (splitOnChar_ne_nil c rest)
      | h2 :: t =>
        rw [hs] at hp
        simp only [List.mem_cons] at hp
        rcases hp with hp | hp
        · subst hp
          intro hmem
          rcases List.mem_cons.mp hmem with h' | h'
          · exact h (h'.symm)
          · have : c ∉ h2 := not_mem_of_mem_splitOnChar c rest h2 (by rw [hs]; simp)
            exact this h'
        · exact not_mem_of_mem_splitOnChar c rest p (by rw [hs]; simp [hp])

theorem mem_of_mem_splitOnChar (c : Char) :
    ∀ (l : List Char) (p : List Char), p ∈ splitOnChar c l → ∀ a ∈ p, a ∈ l
  | [], p, hp => by
    simp [splitOnChar] at hp
    simp [hp]
  | a :: rest, p, hp => by
    by_cases h : a = c
    · simp only [splitOnChar, if_pos h, List.mem_cons] at hp
      rcases hp with hp | hp
      · simp [hp]
      · intro x hx
        exact List.mem_cons_of_mem a (mem_of_mem_splitOnChar c rest p hp x hx)
    · simp only [splitOnChar, if_neg h] at hp
      match hs : splitOnChar c rest with
      | [] => exact absurd hs (splitOnChar_ne_nil c rest)
      | h2 :: t =>
        rw [hs] at hp
        simp only [List.mem_cons] at hp
        rcases hp with hp | hp
        · subst hp
          intro x hx
          rcases List.mem_cons.mp hx with h' | h'
          · simp [h']
          · exact List.mem_cons_of_mem a
              (mem_of_mem_splitOnChar c rest h2 (by rw [hs]; simp) x h')
        · intro x hx
          exact List.mem_cons_of_mem a
            (mem_of_mem_splitOnChar c rest p (by rw [hs]; simp [hp]) x hx)

theorem splitOnChar_eq_single (c : Char) :
    ∀ l : List Char, c ∉ l → splitOnChar c l = [l]
  | [], _ => by simp [splitOnChar]
  | a :: rest, h => by
    have ha : ¬(a = c) := fun hac => h (by simp [hac])
    have hr : c ∉ rest := fun hm => h (List.mem_cons_of_mem a hm)
    simp only [splitOnChar, if_neg ha, splitOnChar_eq_single c rest hr]

theorem splitOnChar_append (c : Char) :
    ∀ l t : List Char, c ∉ l → splitOnChar c (l ++ c :: t) = l :: splitOnChar c t
  | [], t, _ => by simp [splitOnChar]
  | a :: rest, t, h => by
    have ha : ¬(a = c) := fun hac => h (by simp [hac])
    have hr : c ∉ rest := fun hm => h (List.mem_cons_of_mem a hm)
    simp only [List.cons_append, splitOnChar, if_neg ha, List.append_eq]
    rw [splitOnChar_append c rest t hr]

theorem splitOnChar_joinSep (c : Char) :
    ∀ ls : List (List Char), ls ≠ [] → (∀ l ∈ ls, c ∉ l) →
      splitOnChar c (joinSep c ls) = ls
  | [], h, _ => absurd rfl h
  | [l], _, h2 => by
    simp only [joinSep]
    exact splitOnChar_eq_single c l (h2 l (by simp))
  | l :: l2 :: rest, _, h2 => by
    show splitOnChar c (l ++ c :: joinSep c (l2 :: rest)) = _
    rw [splitOnChar_append c l _ (h2 l (by simp))]
    rw [splitOnChar_joinSep c (l2 :: rest) (by simp)
      (fun x hx => h2 x (List.mem_cons_of_mem l hx))]

theorem contains_iff_mem {α : Type} [BEq α] [LawfulBEq α] (p : List α) (a : α) :
    p.contains a = true ↔ a ∈ p := by
  simp [List.contains_iff_exists_mem_beq]

/-! ### Properties of the segment transforms -/

theorem transformParts_cons₂ (p q : List Char) (rest : List (List Char)) :
    transformParts (p :: q :: rest) = upperFirst p :: transformParts (q :: rest) := rfl

theorem transformParts_length : ∀ ps : List (List Char),
    (transformParts ps).length = ps.length
  | [] => rfl
  | [_] => rfl
  | p :: q :: rest => by
    rw [transformParts_cons₂]
    simp [transformParts_length (q :: rest)]

theorem upperFirst_idem (p : List Char) : upperFirst (upperFirst p) = upperFirst p := by
  cases p with
  | nil => rfl
  | cons a rest => simp [upperFirst, toUpper_idem]

theorem not_mem_upperFirst (d : Char) (hd : ¬(65 ≤ d.toNat ∧ d.toNat ≤ 90)) :
    ∀ p : List Char, d ∉ p → d ∉ upperFirst p
  | [], h => h
  | a :: rest, h => by
    simp only [upperFirst, List.mem_cons, not_or] at h ⊢
    exact ⟨fun he => toUpper_ne_of_out a d hd (fun hae => h.1 hae.symm) he.symm, h.2⟩

theorem not_mem_map_toLower (d : Char) (hd : ¬(97 ≤ d.toNat ∧ d.toNat ≤ 122))
    (p : List Char) (h : d ∉ p) : d ∉ p.map Char.toLower := by
  intro hmem
  obtain ⟨x, hxp, hxe⟩ := List.mem_map.mp hmem
  exact toLower_ne_of_out x d hd (fun he => h (he ▸ hxp)) hxe

theorem not_mem_pyCapitalize (d : Char) (hdU : ¬(65 ≤ d.toNat ∧ d.toNat ≤ 90))
    (hdL : ¬(97 ≤ d.toNat ∧ d.toNat ≤ 122)) :
    ∀ p : List Char, d ∉ p → d ∉ pyCapitalize p
  | [], h => h
  | a :: rest, h => by
    simp only [List.mem_cons, not_or] at h
    simp only [pyCapitalize, List.mem_cons, not_or]
    refine ⟨fun he => toUpper_ne_of_out a d hdU (fun hae => h.1 hae.symm) he.symm, ?_⟩
    exact fun hm => not_mem_map_toLower d hdL rest h.2 hm

theorem underscore_not_mem_lastSegTransform (p : List Char) :
    '_' ∉ lastSegTransform p := by
  unfold lastSegTransform
  by_cases h : p.contains '_' = true
  · rw [if_pos h]
    match hs : splitOnChar '_' p with
    | [] => simp
    | s0 :: rest =>
      intro hmem
      rcases List.mem_append.mp hmem with hm | hm
      · exact not_mem_of_mem_splitOnChar '_' p s0 (by rw [hs]; simp) hm
      · obtain ⟨piece, hpiece, hmp⟩ := List.mem_flatten.mp hm
        obtain ⟨orig, horig, rfl⟩ := List.mem_map.mp hpiece
        have horig' : '_' ∉ orig :=
          not_mem_of_mem_splitOnChar '_' p orig (by rw [hs]; simp [horig])
        exact not_mem_pyCapitalize '_' (by decide) (by decide) orig horig' hmp
  · rw [if_neg h]
    intro hmem
    exact h ((contains_iff_mem p '_').mpr hmem)

theorem lastSegTransform_of_not_mem (p : List Char) (h : '_' ∉ p) :
    lastSegTransform p = p := by
  unfold lastSegTransform
  rw [if_neg]
  intro hc
  exact h ((contains_iff_mem p '_').mp hc)

theorem lastSegTransform_idem (p : List Char) :
    lastSegTransform (lastSegTransform p) = lastSegTransform p :=
  lastSegTransform_of_not_mem _ (underscore_not_mem_lastSegTransform p)

theorem dot_not_mem_lastSegTransform (p : List Char) (h : '.' ∉ p) :
    '.' ∉ lastSegTransform p := by
  unfold lastSegTransform
  by_cases hc : p.contains '_' = true
  · rw [if_pos hc]
    match hs : splitOnChar '_' p with
    | [] => simp
    | s0 :: rest =>
      intro hmem
      rcases List.mem_append.mp hmem with hm | hm
      · exact h (mem_of_mem_splitOnChar '_' p s0 (by rw [hs]; simp) '.' hm)
      · obtain ⟨piece, hpiece, hmp⟩ := List.mem_flatten.mp hm
        obtain ⟨orig, horig, rfl⟩ := List.mem_map.mp hpiece
        have horig' : '.' ∉ orig := fun hd =>
          h (mem_of_mem_splitOnChar '_' p orig (by rw [hs]; simp [horig]) '.' hd)
        exact not_mem_pyCapitalize '.' (by decide) (by decide) orig horig' hmp
  · rw [if_neg hc]
    exact h

theorem dot_not_mem_transformParts : ∀ ps : List (List Char),
    (∀ p ∈ ps, '.' ∉ p) → ∀ q ∈ transformParts ps, '.' ∉ q
  | [], _ => by simp [transformParts]
  | [p], h => by
    simp only [transformParts, List.mem_singleton]
    rintro q rfl
    exact dot_not_mem_lastSegTransform p (h p (by simp))
  | p :: p2 :: rest, h => by
    rw [transformParts_cons₂]
    intro q hq
    rcases List.mem_cons.mp hq with hq | hq
    · subst hq
      exact not_mem_upperFirst '.' (by decide) p (h p (by simp))
    · exact dot_not_mem_transformParts (p2 :: rest)
        (fun x hx => h x (List.mem_cons_of_mem p hx)) q hq

theorem transformParts_idem : ∀ ps : List (List Char),
    transformParts (transformParts ps) = transformParts ps
  | [] => rfl
  | [p] => by simp [transformParts, lastSegTransform_idem]
  | p :: p2 :: rest => by
    rw [transformParts_cons₂]
    have hlen : (transformParts (p2 :: rest)).length = rest.length + 1 :=
      transformParts_length (p2 :: rest)
    match hrec : transformParts (p2 :: rest) with
    | [] => rw [hrec] at hlen; simp at hlen
    | y :: ys =>
      rw [transformParts_cons₂, upperFirst_idem, ← hrec, transformParts_idem (p2 :: rest)]

/-- Claim C10: the key transformation is idempotent; applying
`snake_to_camel` to its own output returns that output unchanged. -/
theorem snake_to_camel_c10_idempotent (s : List Char) :
    snake_to_camel (snake_to_camel s) = snake_to_camel s := by
  unfold snake_to_camel
  have h1 : transformParts (splitOnChar '.' s) ≠ [] := by
    intro hnil
    have := transformParts_length (splitOnChar '.' s)
    rw [hnil] at this
    exact splitOnChar_ne_nil '.' s (List.length_eq_zero.mp this.symm)
  have h2 : ∀ q ∈ transformParts (splitOnChar '.' s), '.' ∉ q :=
    dot_not_mem_transformParts (splitOnChar '.' s)
      (fun p hp => not_mem_of_mem_splitOnChar '.' s p hp)
  rw [splitOnChar_joinSep '.' _ h1 h2, transformParts_idem]

theorem transformParts_eq_spec : ∀ ps : List (List Char), ps ≠ [] →
    transformParts ps = ps.dropLast.map upperFirst ++ [lastSegTransform (ps.getLastD [])]
  | [], h => absurd rfl h
  | [p], _ => by simp [transformParts]
  | p :: q :: rest, _ => by
    rw [transformParts_cons₂, transformParts_eq_spec (q :: rest) (by simp)]
    simp [List.getLastD_cons]

/-- Claim C2 counterexample: on the key `b_XY` the code produces `bXy`
(Python `capitalize` lowercases the tail of the sub-segment), while the
claim's literal description (capitalize only the first character, leave the
remainder unchanged) produces `bXY`. -/
theorem snake_to_camel_c2_counterexample :
    snake_to_camel ("b_XY".data) = "bXy".data ∧
      transformClaimed ("b_XY".data) = "bXY".data ∧
      snake_to_camel ("b_XY".data) ≠ transformClaimed ("b_XY".data) := by
  refine ⟨by decide, by decide, by decide⟩

/-- Claim C2 (amended): `snake_to_camel` is the pure function that splits on
dots, uppercases the first character of every non-terminal segment leaving
the remainder unchanged, and applies the underscore rule with Python
`capitalize` semantics (first character uppercased, remaining characters
lowercased) to the terminal segment; the four documented examples hold
exactly. -/
theorem snake_to_camel_c2_amended :
    (∀ s : List Char, snake_to_camel s = transformSpec s) ∧
      snake_to_camel ("common.ok".data) = "Common.ok".data ∧
      snake_to_camel ("market.header.name".data) = "Market.Header.name".data ∧
      snake_to_camel ("addbalance.flashexchange.subtitle".data) =
        "Addbalance.Flashexchange.subtitle".data ∧
      snake_to_camel ("futuresrecords.header.amount_usdt".data) =
        "Futuresrecords.Header.amountUsdt".data := by
  refine ⟨fun s => ?_, by decide, by decide, by decide, by decide⟩
  unfold snake_to_camel transformSpec
  rw [transformParts_eq_spec (splitOnChar '.' s) (splitOnChar_ne_nil '.' s)]

/-! ### Properties of the line loop of parser and remover -/

theorem matchEntry_nil : matchEntry [] = none := rfl

theorem dropSpaces_cons_of (a : Char) (t : List Char) (h : pyIsSpace a = false) :
    dropSpaces (a :: t) = a :: t := by
  rw [dropSpaces, List.dropWhile_cons, if_neg]
  simp [h]

theorem matchEntry_slash (rest : List Char) : matchEntry ('/' :: rest) = none := by
  unfold matchEntry
  rw [dropSpaces_cons_of '/' rest (by decide)]
  simp

theorem lineEntry_eq_matchEntry (line : List Char) :
    lineEntry line = matchEntry (pyStrip line) := by
  unfold lineEntry
  by_cases h1 : (pyStrip line).isEmpty
  · rw [if_pos (by simp [h1])]
    rw [List.isEmpty_iff.mp h1]
    exact matchEntry_nil.symm
  · by_cases h2 : ['/', '/'].isPrefixOf (pyStrip line) = true
    · rw [if_pos (by simp [h2])]
      obtain ⟨t, ht⟩ := List.isPrefixOf_iff_prefix.mp h2
      rw [← ht]
      exact (matchEntry_slash ('/' :: t)).symm
    · rw [if_neg (by simp [h1, h2])]

/-- The Boolean test deciding whether a line is removed: it parses via the
strict entry pattern to a key in the removal set. -/
def lineRemoved (ks : List (List Char)) (line : List Char) : Bool :=
  match matchEntry (pyStrip line) with
  | some kv => ks.contains kv.1
  | none => false

theorem removeStep_eq (ks : List (List Char)) (acc : List (List Char) × Nat)
    (line : List Char) :
    removeStep ks acc line =
      if lineRemoved ks line then (acc.1, acc.2 + 1) else (acc.1 ++ [line], acc.2) := by
  unfold removeStep lineRemoved
  rw [lineEntry_eq_matchEntry]
  cases matchEntry (pyStrip line) with
  | none => simp
  | some kv =>
    by_cases h : ks.contains kv.1 = true
    · simp [h]
    · simp [h]

theorem remove_foldl (ks : List (List Char)) : ∀ (lines acc0 : List (List Char)) (cnt0 : Nat),
    lines.foldl (removeStep ks) (acc0, cnt0) =
      (acc0 ++ lines.filter (fun l => !(lineRemoved ks l)),
        cnt0 + lines.countP (fun l => lineRemoved ks l))
  | [], acc0, cnt0 => by simp
  | l :: rest, acc0, cnt0 => by
    rw [List.foldl_cons, removeStep_eq]
    by_cases h : lineRemoved ks l = true
    · rw [if_pos h]
      rw [remove_foldl ks rest acc0 (cnt0 + 1)]
      rw [List.filter_cons, List.countP_cons]
      simp [h]
      omega
    · rw [if_neg h]
      rw [remove_foldl ks rest (acc0 ++ [l]) cnt0]
      rw [List.filter_cons, List.countP_cons]
      simp [h]

/-- Claim C3: the entry remover produces exactly the input lines minus the
lines that parse, via the strict entry pattern, to a key in the removal set;
all remaining lines (comments, blank lines, non-matching lines) are kept
verbatim and in their original relative order. -/
theorem remove_unused_c3 (lines : List (List Char)) (ks : List (List Char)) :
    (remove_unused_localizations lines ks).1 =
      lines.filter (fun l =>
        !(match matchEntry (pyStrip l) with
          | some kv => ks.contains kv.1
          | none => false)) := by
  unfold remove_unused_localizations
  rw [remove_foldl ks lines [] 0]
  simp only [List.nil_append]
  exact List.filter_congr (fun l _ => by rw [lineRemoved])

/-- Claim C6: the entry remover returns the count of lines actually removed,
the number of input lines that parse via the strict entry pattern to a key
in the removal set. -/
theorem remove_unused_c6 (lines : List (List Char)) (ks : List (List Char)) :
    (remove_unused_localizations lines ks).2 =
      lines.countP (fun l =>
        match matchEntry (pyStrip l) with
        | some kv => ks.contains kv.1
        | none => false) := by
  unfold remove_unused_localizations
  rw [remove_foldl ks lines [] 0]
  simp only [Nat.zero_add]
  exact List.countP_congr (fun l _ => by rw [lineRemoved])

/-! ### Properties of the table built by the parser -/

theorem lookupTable_dictInsert_self {α : Type} (k : List Char) (v : α) :
    ∀ m : List (List Char × α), lookupTable (dictInsert m k v) k = some v := by
  intro m
  unfold dictInsert
  by_cases hmem : m.any (fun p => p.1 == k) = true
  · rw [if_pos hmem]
    induction m with
    | nil => simp at hmem
    | cons p rest ih =>
      by_cases hp : p.1 == k
      · simp only [List.map_cons, if_pos hp]
        unfold lookupTable
        rw [List.find?_cons_of_pos _ (by simp)]
        rfl
      · simp only [List.map_cons, if_neg hp]
        unfold lookupTable
        rw [List.find?_cons_of_neg _ (by simpa using hp)]
        have hrest : rest.any (fun p => p.1 == k) = true := by
          rcases List.any_eq_true.mp hmem with ⟨q, hq, hqk⟩
          rcases List.mem_cons.mp hq with rfl | hq
          · exact absurd hqk (by simpa using hp)
          · exact List.any_eq_true.mpr ⟨q, hq, hqk⟩
        exact ih hrest
  · rw [if_neg hmem]
    unfold lookupTable
    rw [List.find?_append]
    have hnone : m.find? (fun p => p.1 == k) = none := by
      rw [List.find?_eq_none]
      intro q hq hqk
      exact hmem (List.any_eq_true.mpr ⟨q, hq, by simpa using hqk⟩)
    rw [hnone]
    simp [List.find?_cons_of_pos]

theorem lookupTable_dictInsert_other {α : Type} (k k' : List Char) (v : α)
    (hne : k' ≠ k) :
    ∀ m : List (List Char × α), lookupTable (dictInsert m k v) k' = lookupTable m k' := by
  intro m
  unfold dictInsert
  by_cases hmem : m.any (fun p => p.1 == k) = true
  · rw [if_pos hmem]
    clear hmem
    induction m with
    | nil => rfl
    | cons p rest ih =>
      by_cases hp : p.1 == k
      · simp only [List.map_cons, if_pos hp]
        unfold lookupTable
        rw [List.find?_cons_of_neg _ (by simpa using (Ne.symm hne)),
          List.find?_cons_of_neg _ (by
            have : p.1 = k := by simpa using hp
            simpa [this] using (Ne.symm hne))]
        exact ih
      · simp only [List.map_cons, if_neg hp]
        unfold lookupTable
        by_cases hp' : p.1 == k'
        · rw [List.find?_cons_of_pos _ (by simpa using hp'),
            List.find?_cons_of_pos _ (by simpa using hp')]
        · rw [List.find?_cons_of_neg _ (by simpa using hp'),
            List.find?_cons_of_neg _ (by simpa using hp')]
          exact ih
  · rw [if_neg hmem]
    unfold lookupTable
    rw [List.find?_append]
    rw [show List.find? (fun p => p.1 == k') [(k, v)] = none from by
      simp [List.find?_cons, Ne.symm hne]]
    rw [Option.or_none]

theorem keys_nodup_dictInsert {α : Type} (m : List (List Char × α)) (k : List Char)
    (v : α) (h : (m.map Prod.fst).Nodup) :
    ((dictInsert m k v).map Prod.fst).Nodup := by
  unfold dictInsert
  by_cases hmem : m.any (fun p => p.1 == k) = true
  · rw [if_pos hmem]
    rw [List.map_map]
    have : m.map (Prod.fst ∘ fun p => if p.1 == k then (k, v) else p) = m.map Prod.fst := by
      apply List.map_congr_left
      intro p _
      by_cases hp : p.1 == k
      · simp only [Function.comp, if_pos hp]
        have : p.1 = k := by simpa using hp
        simp [this]
      · have hp' : ¬(p.1 = k) := by simpa using hp
        simp [Function.comp, hp']
    rw [this]
    exact h
  · rw [if_neg hmem]
    rw [List.map_append]
    simp only [List.map_cons, List.map_nil]
    rw [List.nodup_append]
    refine ⟨h, by simp, ?_⟩
    intro x hx
    simp only [List.mem_singleton]
    intro hxk
    subst hxk
    obtain ⟨p, hp, rfl⟩ := List.mem_map.mp hx
    exact hmem (List.any_eq_true.mpr ⟨p, hp, by simp⟩)

theorem parseStep_eq (m : List (List Char × (List Char × List Char))) (line : List Char) :
    parseStep m line =
      match lineEntry line with
      | some kv => dictInsert m kv.1 (snake_to_camel kv.1, kv.2)
      | none => m := by
  unfold parseStep
  cases lineEntry line with
  | none => rfl
  | some kv => rfl

theorem parse_nodup : ∀ (lines : List (List Char))
    (m : List (List Char × (List Char × List Char))),
    (m.map Prod.fst).Nodup → ((lines.foldl parseStep m).map Prod.fst).Nodup
  | [], _, h => h
  | l :: rest, m, h => by
    rw [List.foldl_cons]
    apply parse_nodup rest
    rw [parseStep_eq]
    cases lineEntry l with
    | none => exact h
    | some kv => exact keys_nodup_dictInsert m kv.1 _ h

theorem parse_foldl (k : List Char) : ∀ (lines : List (List Char))
    (m : List (List Char × (List Char × List Char))),
    lookupTable (lines.foldl parseStep m) k =
      (((lines.reverse.filterMap lineEntry).find? (fun p => p.1 == k)).map
        (fun p => (snake_to_camel p.1, p.2))).or (lookupTable m k)
  | [], m => by simp
  | l :: rest, m => by
    rw [List.foldl_cons, parse_foldl k rest (parseStep m l)]
    rw [List.reverse_cons, List.filterMap_append, List.find?_append]
    rw [parseStep_eq]
    cases hle : lineEntry l with
    | none =>
      simp only [List.filterMap_cons, hle, List.filterMap_nil, List.find?_nil,
        Option.or_none]
    | some kv =>
      obtain ⟨k0, v0⟩ := kv
      simp only [List.filterMap_cons, hle, List.filterMap_nil]
      cases hfa : (rest.reverse.filterMap lineEntry).find? (fun p => p.1 == k) with
      | some p => simp
      | none =>
        simp only [Option.map_none, Option.none_or]
        by_cases hk : k = k0
        · subst hk
          rw [lookupTable_dictInsert_self]
          rw [List.find?_cons_of_pos _ (by simp)]
          simp
        · rw [lookupTable_dictInsert_other k0 k _ hk]
          rw [List.find?_cons_of_neg _ (by simpa using Ne.symm hk)]
          simp

/-- Claim C8: the parsed table maps each key to exactly one value (its key
column is duplicate-free), and a key that occurs on several matching lines
is mapped to the entry of its last matching occurrence. -/
theorem parse_localizable_c8 (lines : List (List Char)) :
    ((parse_localizable_strings lines).map Prod.fst).Nodup ∧
    ∀ k : List Char,
      lookupTable (parse_localizable_strings lines) k =
        ((lines.reverse.filterMap lineEntry).find? (fun p => p.1 == k)).map
          (fun p => (snake_to_camel p.1, p.2)) := by
  constructor
  · exact parse_nodup lines [] (by simp)
  · intro k
    unfold parse_localizable_strings
    rw [parse_foldl k lines []]
    rw [show lookupTable ([] : List (List Char × (List Char × List Char))) k = none from rfl]
    rw [Option.or_none]

/-! ### Round-trip of the single-line serialized form -/

theorem matchQuoted_quote (t : List Char) : matchQuoted ('"' :: t) = some ([], t) := by
  cases t with
  | nil => simp [matchQuoted]
  | cons c rest => simp [matchQuoted]

theorem matchQuoted_append : ∀ (v t : List Char), wellFormedValue v = true →
    matchQuoted (v ++ '"' :: t) = some (v, t)
  | [], t, _ => by
    show matchQuoted ('"' :: t) = some ([], t)
    exact matchQuoted_quote t
  | [a], t, h => by
    simp only [wellFormedValue, Bool.and_eq_true, decide_eq_true_eq] at h
    show matchQuoted (a :: ('"' :: t)) = some ([a], t)
    simp only [matchQuoted, if_neg h.1, if_neg h.2, matchQuoted_quote]
  | a :: c :: rest, t, h => by
    simp only [wellFormedValue] at h
    by_cases ha : a = '"'
    · rw [if_pos ha] at h
      exact absurd h (by simp)
    · by_cases hb : a = '\\'
      · rw [if_neg ha, if_pos hb] at h
        subst hb
        simp only [Bool.and_eq_true, decide_eq_true_eq] at h
        show matchQuoted ('\\' :: c :: (rest ++ '"' :: t)) = _
        simp only [matchQuoted, if_neg (show ¬('\\' : Char) = '"' from by decide),
          if_pos rfl, if_neg h.1, if_true, eq_self_iff_true]
        rw [matchQuoted_append rest t h.2]
      · rw [if_neg ha, if_neg hb] at h
        show matchQuoted (a :: ((c :: rest) ++ '"' :: t)) = _
        simp only [matchQuoted, if_neg ha, if_neg hb]
        rw [matchQuoted_append (c :: rest) t h]

theorem span_key_append : ∀ (k : List Char) (b : Char) (t : List Char),
    (∀ c ∈ k, isKeyChar c = true) → isKeyChar b = false →
    List.span isKeyChar (k ++ b :: t) = (k, b :: t)
  | [], b, t, _, hb => by
    simp [List.span_eq_take_drop, List.takeWhile_cons, List.dropWhile_cons, hb]
  | a :: k', b, t, hk, hb => by
    have ha : isKeyChar a = true := hk a (by simp)
    have hrec := span_key_append k' b t (fun c hc => hk c (List.mem_cons_of_mem a hc)) hb
    simp only [List.span_eq_take_drop, Prod.mk.injEq] at hrec ⊢
    simp only [List.cons_append, List.takeWhile_cons, List.dropWhile_cons, ha,
      if_true]
    exact ⟨by rw [hrec.1], hrec.2⟩

theorem dropSpaces_cons_space (a : Char) (t : List Char) (h : pyIsSpace a = true) :
    dropSpaces (a :: t) = dropSpaces t := by
  simp [dropSpaces, List.dropWhile_cons, h]

/-- Claim C9 (amended): for a non-empty key over the charset `[A-Za-z0-9_.-]`
and a value that is a well-formed token sequence (no unescaped quote and no
dangling backslash, with no escaped newline), parsing the serialized line
`"key" = "value";` recovers exactly the pair. -/
theorem serialize_parse_c9_amended (k v : List Char) (hk1 : k ≠ [])
    (hk2 : ∀ c ∈ k, isKeyChar c = true) (hv : wellFormedValue v = true) :
    matchEntry (serializeEntry k v) = some (k, v) := by
  unfold serializeEntry matchEntry
  rw [dropSpaces_cons_of '"' _ (by decide)]
  simp only [span_key_append k '"' _ hk2 (by decide), if_neg hk1, if_pos rfl,
    matchEntryTail,
    dropSpaces_cons_space ' ' _ (by decide),
    dropSpaces_cons_of '=' _ (by decide),
    dropSpaces_cons_of '"' _ (by decide),
    dropSpaces_cons_of ';' _ (by decide),
    matchQuoted_append v [';'] hv,
    List.isEmpty_nil, if_true, eq_self_iff_true]
  rfl

/-- Claim C9 witness: a concrete round trip through the amended theorem. -/
theorem serialize_parse_c9_witness :
    ("common.ok".data ≠ [] ∧ (∀ c ∈ "common.ok".data, isKeyChar c = true) ∧
      wellFormedValue ("OK".data) = true) ∧
    matchEntry (serializeEntry ("common.ok".data) ("OK".data)) =
      some ("common.ok".data, "OK".data) :=
  ⟨⟨by decide, by decide, by decide⟩,
    serialize_parse_c9_amended ("common.ok".data) ("OK".data)
      (by decide) (by decide) (by decide)⟩

/-- Claim C9 counterexample: the value consisting of a single backslash
contains no unescaped quote, yet the serialized line `"k" = "\";` fails to
parse, so the round trip does not recover the pair. -/
theorem serialize_parse_c9_counterexample :
    noUnescapedQuote ['\\'] = true ∧
      (∀ c ∈ "k".data, isKeyChar c = true) ∧
      matchEntry (serializeEntry ("k".data) ['\\']) = none :=
  ⟨by decide, by decide, by decide⟩

/-! ### Properties of the usage classifier -/

theorem nativeHit_iff (key : List Char) (f : SourceFile) :
    nativeHit key f = true ↔
      ((f.suffix ∈ cFamilySuffixes ∧ containsSub (nativeTermOC key) f.content = true) ∨
       (f.suffix = ".swift".data ∧
         (containsSub (nativeTermSwift key) f.content = true ∨
          containsSub (nativeTermOC key) f.content = true))) := by
  unfold nativeHit search_in_file
  by_cases h1 : cFamilySuffixes.contains f.suffix = true
  · rw [if_pos h1]
    have hmem := (contains_iff_mem _ _).mp h1
    constructor
    · intro h
      exact Or.inl ⟨hmem, h⟩
    · rintro (⟨_, h⟩ | ⟨hs, _⟩)
      · exact h
      · exfalso
        rw [hs] at hmem
        revert hmem
        decide
  · rw [if_neg h1]
    have hmem : f.suffix ∉ cFamilySuffixes := fun hm => h1 ((contains_iff_mem _ _).mpr hm)
    by_cases h2 : (f.suffix == ".swift".data) = true
    · rw [if_pos h2]
      have hs : f.suffix = ".swift".data := by simpa using h2
      constructor
      · intro h
        exact Or.inr ⟨hs, by simpa using h⟩
      · rintro (⟨hm, _⟩ | ⟨_, h⟩)
        · exact absurd hm hmem
        · simpa using h
    · rw [if_neg h2]
      have hs : ¬(f.suffix = ".swift".data) := by simpa using h2
      constructor
      · intro h
        exact absurd h (by simp)
      · rintro (⟨hm, _⟩ | ⟨hm, _⟩)
        · exact absurd hm hmem
        · exact absurd hm hs

/-- Claim C1: with the transformed key computed by `snake_to_camel`, the
classifier reports the SwiftGen kind exactly when some candidate file
contains `L10n.` followed by the transformed key; when no file does, it
reports the native kind exactly when some file contains the
extension-appropriate `NSLocalizedString` reference (`.m`/`.mm`/`.h` files
are tested only with the Objective-C literal form, `.swift` files with both
forms); and it reports unused exactly when neither reference occurs.  The
generator-style pass runs over all files before any native test. -/
theorem is_localization_used_c1 (key : List Char) (files : List SourceFile) :
    ((is_localization_used key (snake_to_camel key) files).2.2 = "SwiftGen".data ↔
      ∃ f ∈ files, containsSub (swiftgenTerm (snake_to_camel key)) f.content = true) ∧
    ((¬ ∃ f ∈ files, containsSub (swiftgenTerm (snake_to_camel key)) f.content = true) →
      ((is_localization_used key (snake_to_camel key) files).2.2 =
          "NSLocalizedString".data ↔
        ∃ f ∈ files,
          ((f.suffix ∈ cFamilySuffixes ∧ containsSub (nativeTermOC key) f.content = true) ∨
           (f.suffix = ".swift".data ∧
             (containsSub (nativeTermSwift key) f.content = true ∨
              containsSub (nativeTermOC key) f.content = true))))) ∧
    ((is_localization_used key (snake_to_camel key) files).1 = false ↔
      ((¬ ∃ f ∈ files, containsSub (swiftgenTerm (snake_to_camel key)) f.content = true) ∧
       (¬ ∃ f ∈ files,
          ((f.suffix ∈ cFamilySuffixes ∧ containsSub (nativeTermOC key) f.content = true) ∨
           (f.suffix = ".swift".data ∧
             (containsSub (nativeTermSwift key) f.content = true ∨
              containsSub (nativeTermOC key) f.content = true)))))) := by
  unfold is_localization_used
  cases h1 : files.find? (fun f => search_in_file f (swiftgenTerm (snake_to_camel key))) with
  | some f =>
    have hf0 := List.find?_some h1
    have hf : containsSub (swiftgenTerm (snake_to_camel key)) f.content = true := hf0
    have hfm : f ∈ files := List.mem_of_find?_eq_some h1
    have hex : ∃ g ∈ files, containsSub (swiftgenTerm (snake_to_camel key)) g.content = true :=
      ⟨f, hfm, hf⟩
    refine ⟨⟨fun _ => hex, fun _ => rfl⟩, fun hne => absurd hex hne, ?_⟩
    constructor
    · intro h
      exact absurd h (by simp)
    · rintro ⟨hne, _⟩
      exact absurd hex hne
  | none =>
    have hne : ¬ ∃ g ∈ files, containsSub (swiftgenTerm (snake_to_camel key)) g.content = true := by
      rintro ⟨g, hg, hgc⟩
      exact (List.find?_eq_none.mp h1 g hg) hgc
    cases h2 : files.find? (fun f => nativeHit key f) with
    | some f =>
      have hf : nativeHit key f = true := List.find?_some h2
      have hfm : f ∈ files := List.mem_of_find?_eq_some h2
      have hex : ∃ g ∈ files,
          ((g.suffix ∈ cFamilySuffixes ∧ containsSub (nativeTermOC key) g.content = true) ∨
           (g.suffix = ".swift".data ∧
             (containsSub (nativeTermSwift key) g.content = true ∨
              containsSub (nativeTermOC key) g.content = true))) :=
        ⟨f, hfm, (nativeHit_iff key f).mp hf⟩
      refine ⟨⟨fun h => absurd h (by simp), fun h => absurd h hne⟩,
        fun _ => ⟨fun _ => hex, fun _ => rfl⟩, ?_⟩
      constructor
      · intro h
        exact absurd h (by simp)
      · rintro ⟨_, hnen⟩
        exact absurd hex hnen
    | none =>
      have hnen : ¬ ∃ g ∈ files,
          ((g.suffix ∈ cFamilySuffixes ∧ containsSub (nativeTermOC key) g.content = true) ∨
           (g.suffix = ".swift".data ∧
             (containsSub (nativeTermSwift key) g.content = true ∨
              containsSub (nativeTermOC key) g.content = true))) := by
        rintro ⟨g, hg, hgc⟩
        exact (List.find?_eq_none.mp h2 g hg) ((nativeHit_iff key g).mpr hgc)
      refine ⟨⟨fun h => absurd h (by simp), fun h => absurd h hne⟩,
        fun _ => ⟨fun h => absurd h (by simp), fun h => absurd h hnen⟩,
        ⟨fun _ => ⟨hne, hnen⟩, fun _ => rfl⟩⟩

/-! ### SourceScanner path exclusion -/

/-- Claim C5 counterexample: the path `MyPods/a.swift` has `Pods` as a
substring of its first segment, so the claim's substring rule would exclude
it, yet the code's tuple-membership test keeps it. -/
theorem find_swift_files_c5_counterexample :
    find_swift_files_filter [["MyPods".data, "a.swift".data]] =
      [["MyPods".data, "a.swift".data]] ∧
    containsSub ("Pods".data) ("MyPods".data) = true :=
  ⟨by decide, by decide⟩

/-- Claim C5 (amended): the scanner's filter excludes a candidate path
exactly when some path segment is equal to one of `Pods`, `build`,
`DerivedData`, `.git` (whole-segment equality, not substring matching), and
keeps every other path. -/
theorem find_swift_files_c5_amended (paths : List (List (List Char)))
    (p : List (List Char)) :
    p ∈ find_swift_files_filter paths ↔
      p ∈ paths ∧ ∀ s ∈ p, s ∉ excludedDirNames := by
  unfold find_swift_files_filter
  rw [List.mem_filter]
  apply and_congr_right
  intro _
  constructor
  · intro h s hs hmem
    have hany : excludedDirNames.any (fun d => p.contains d) = true :=
      List.any_eq_true.mpr ⟨s, hmem, (contains_iff_mem p s).mpr hs⟩
    rw [hany] at h
    exact absurd h (by simp)
  · intro h
    rw [Bool.not_eq_true'] at *
    rw [← Bool.not_eq_true]
    intro hany
    obtain ⟨d, hd, hdc⟩ := List.any_eq_true.mp hany
    exact h d ((contains_iff_mem p d).mp hdc) hd

/-! ### Key-diff set operations -/

theorem diff_parse_foldl : ∀ (lines : List (List Char)) (s : Finset (List Char)),
    lines.foldl
      (fun s line =>
        match diffLineKey line with
        | some k => insert k s
        | none => s) s =
      s ∪ (lines.filterMap diffLineKey).toFinset
  | [], s => by simp
  | l :: rest, s => by
    rw [List.foldl_cons]
    cases hd : diffLineKey l with
    | none =>
      simp only [hd]
      rw [diff_parse_foldl rest s]
      simp [List.filterMap_cons, hd]
    | some k =>
      simp only [hd]
      rw [diff_parse_foldl rest (insert k s)]
      simp only [List.filterMap_cons, hd, List.toFinset_cons]
      rw [Finset.insert_union, Finset.union_insert]

theorem parse_strings_toFinset (lines : List (List Char)) :
    parse_strings_file_content lines = (lines.filterMap diffLineKey).toFinset := by
  unfold parse_strings_file_content
  rw [diff_parse_foldl lines ∅]
  simp

/-- Claim C7: the missing keys are the plain set difference of the key sets
(values play no part), the displayed list is sorted lexicographically and
holds exactly the missing keys, diffing a key set against itself is empty,
and the parsed key set does not depend on the order of the file's lines. -/
theorem compare_missing_c7 :
    (∀ (b c : Finset (List Char)) (k : List Char),
      k ∈ compare_missing b c ↔ k ∈ b ∧ k ∉ c) ∧
    (∀ b : Finset (List Char), compare_missing b b = ∅) ∧
    (∀ b c : Finset (List Char), (display_missing b c).Sorted LexLeP) ∧
    (∀ b c : Finset (List Char), (display_missing b c).toFinset = compare_missing b c) ∧
    (∀ l1 l2 : List (List Char), l1.Perm l2 →
      parse_strings_file_content l1 = parse_strings_file_content l2) := by
  refine ⟨fun b c k => Finset.mem_sdiff, fun b => Finset.sdiff_self b,
    fun b c => Finset.sort_sorted LexLeP _, fun b c => Finset.sort_toFinset LexLeP _,
    fun l1 l2 hp => ?_⟩
  rw [parse_strings_toFinset, parse_strings_toFinset]
  exact List.toFinset_eq_of_perm _ _ (hp.filterMap diffLineKey)

/-! ### Key-diff tool status computation -/

/-- Base file lines of the documented scenario: keys `a`, `b`, `c`. -/
def c4BaseLines : List (List Char) :=
  ["\"a\" = \"1\";".data, "\"b\" = \"2\";".data, "\"c\" = \"3\";".data]

/-- Compare file lines of the documented scenario: keys `a`, `c`. -/
def c4CompareLines : List (List Char) :=
  ["\"a\" = \"1\";".data, "\"c\" = \"3\";".data]

/-- Claim C4 (code bug evidence): on the scenario base `{a, b, c}` against
compare `{a, c}`, the tool finds exactly the missing key `b` and `main`
computes status 1, but the process exit code is 0 because the module guard
discards the return value of `main` and never calls `sys.exit`. -/
theorem keyDiff_c4_evaluation :
    keyDiffMainReturn (some c4BaseLines) (some c4CompareLines) none = 1 ∧
    compare_missing (parse_strings_file_content c4BaseLines)
        (parse_strings_file_content c4CompareLines) = {"b".data} ∧
    keyDiffProcessExit (some c4BaseLines) (some c4CompareLines) none = 0 :=
  ⟨by decide, by decide, rfl⟩
